import Mathlib

/-!
Verification development for the ComfyUI-Violet-Tools prompt consolidation
pipeline (`node_resources/prompt_consolidator.py`) and the shared dedup
wrapper (`node_resources/prompt_dedupe.py`).

The Python functions are shallowly embedded as executable Lean definitions.
Strings are Lean `String`s manipulated through their character lists; the
`rapidfuzz` similarity scorer (an external library, not part of this
repository) is threaded through the pipeline as an explicit function
parameter `String → String → ℚ`, so theorems quantified over the scorer
hold for the real library as well.  A concrete model of `fuzz.QRatio`
(`qratioModel`) is supplied for concrete evaluations.
-/

namespace VT

/-- ASCII whitespace `[ \t\n\r\x0b\x0c]`: the ASCII characters stripped
by Python's `str.strip()`, split by `str.split()` and matched by the
regex class `\s` (non-ASCII Unicode whitespace lies outside the inputs
modelled here). -/
def isSpaceChar (c : Char) : Bool :=
  c = ' ' ∨ c = '\t' ∨ c = '\n' ∨ c = '\r' ∨ c = '\x0b' ∨ c = '\x0c'

/-- Strip leading and trailing whitespace from a character list
(Python `str.strip()`). -/
def stripChars (l : List Char) : List Char :=
  ((l.dropWhile isSpaceChar).reverse.dropWhile isSpaceChar).reverse

/-- Python `s.strip()`. -/
def stripStr (s : String) : String :=
  String.mk (stripChars s.data)

/-- Split a character list on a separator character (Python `str.split(sep)`:
keeps empty pieces). -/
def splitOnChar (c : Char) : List Char → List (List Char)
  | [] => [[]]
  | x :: xs =>
    if x = c then [] :: splitOnChar c xs
    else
      match splitOnChar c xs with
      | [] => [[x]]
      | y :: ys => (x :: y) :: ys

/-- `_split_and_clean` from `prompt_consolidator.py`: split on commas,
strip each piece, keep the non-empty pieces. -/
def split_and_clean (s : String) : List String :=
  ((splitOnChar ',' s.data).map (fun l => String.mk (stripChars l))).filter
    (fun t => t ≠ "")

/-- Python `", ".join(lst)`. -/
def joinComma : List String → String
  | [] => ""
  | [t] => t
  | t :: rest => t ++ ", " ++ joinComma rest

/-- Python `str.lower()` (ASCII). -/
def lowerStr (s : String) : String :=
  String.mk (s.data.map Char.toLower)

/-- `token.lower().replace("_", " ")`: the normalized lookup key used by
the canonicalizer and the retention-floor enforcer. -/
def normKey (s : String) : String :=
  String.mk (s.data.map (fun c => if c.toLower = '_' then ' ' else c.toLower))

/-- Modelled from the spec: `rapidfuzz.utils.default_process`, the
preprocessing applied by `fuzz.QRatio` (an external library function whose
source is not part of this repository): lowercase, replace non-alphanumeric
characters with spaces, trim.  The spec calls the scorer
"quick-ratio style, case-insensitive". -/
def defaultProcess (s : String) : List Char :=
  stripChars (s.data.map (fun c => if c.isAlphanum then c.toLower else ' '))

/-- One row update of the longest-common-subsequence dynamic program. -/
def lcsAux (c : Char) : List Char → List Nat → Nat → Nat → List Nat
  | [], _, _, _ => []
  | bc :: bs, p :: ps, diag, cur =>
    (if c = bc then diag + 1 else max cur p) ::
      lcsAux c bs ps p (if c = bc then diag + 1 else max cur p)
  | _ :: _, [], _, _ => []

/-- New LCS row from the previous row. -/
def lcsRow (c : Char) (b : List Char) (prev : List Nat) : List Nat :=
  0 :: lcsAux c b (prev.drop 1) (prev.headD 0) 0

/-- Length of the longest common subsequence of two character lists. -/
def lcsLen (a b : List Char) : Nat :=
  (a.foldl (fun row c => lcsRow c b row) (List.replicate (b.length + 1) 0)).getLastD 0

/-- Modelled from the spec: `rapidfuzz.fuzz.QRatio` (external library).
Indel-based normalized similarity on a 0–100 scale after `defaultProcess`:
`100 * (1 - dist/(|a|+|b|))` where the indel distance is
`|a| + |b| - 2 * lcs(a, b)`; two empty strings score 100. -/
def qratioModel (s t : String) : ℚ :=
  let a := defaultProcess s
  let b := defaultProcess t
  if a = [] ∧ b = [] then 100
  else Rat.divInt (Int.ofNat (200 * lcsLen a b)) (Int.ofNat (a.length + b.length))

/-- The fuzzy scorer type: `rapidfuzz` scores are on a 0–100 scale. -/
abbrev Scorer := String → String → ℚ

/-- `ConsolidationConfig` of `prompt_consolidator.py`, after construction:
the four line lists, the alias map (a Python dict, i.e. an
insertion-ordered association list from comma-joined alias strings to the
canonical string), the modifiers table and the `sfw_mode` flag. -/
structure ConsolidationConfig where
  allowlist : List String := []
  weightable : List String := []
  media : List String := []
  drift : List String := []
  alias_map : List (String × String) := []
  modifiers : List (String × String) := []
  sfw_mode : Bool := false
  deriving Repr, DecidableEq

/-- `[a.strip() for a in aliases_csv.split(",")]`. -/
def splitCommaTrim (s : String) : List String :=
  (splitOnChar ',' s.data).map (fun l => String.mk (stripChars l))

/-- The alias-map scan of `_alias_or_canonical`: for each key (in dict
order) split the comma-joined aliases, trim them, and return the mapped
canonical value of the first key containing the lookup key. -/
def aliasScan (key : String) : List (String × String) → Option String
  | [] => none
  | (ak, canon) :: rest =>
    if key ∈ splitCommaTrim ak then some canon else aliasScan key rest

/-- `rapidfuzz.process.extractOne(key, choices, scorer=...)`: best-scoring
choice, first one wins on ties (a later choice replaces the current best
only with a strictly greater score); `none` on an empty choice list. -/
def extractOneGo (scorer : Scorer) (key : String) :
    List String → String × ℚ → String × ℚ
  | [], best => best
  | c :: rest, best =>
    if best.2 < scorer key c then extractOneGo scorer key rest (c, scorer key c)
    else extractOneGo scorer key rest best

/-- `rapidfuzz.process.extractOne` over a list of choices. -/
def extractOne (scorer : Scorer) (key : String) :
    List String → Option (String × ℚ)
  | [] => none
  | c :: rest => some (extractOneGo scorer key rest (c, scorer key c))

/-- `_alias_or_canonical` from `prompt_consolidator.py`. -/
def alias_or_canonical (scorer : Scorer) (cfg : ConsolidationConfig)
    (token : String) : String :=
  let key := normKey token
  if key ∈ cfg.allowlist then key
  else
    match aliasScan key cfg.alias_map with
    | some canon => canon
    | none =>
      match extractOne scorer key cfg.allowlist with
      | some (candidate, score) => if 90 ≤ score then candidate else key
      | none => key

/-- The loop body of `_dedupe_near`: keep a token unless a kept one scores
at least `threshold` against it (empty tokens are skipped). -/
def dedupeNearGo (scorer : Scorer) (threshold : ℚ) (kept : List String) :
    List String → List String
  | [] => kept
  | t :: rest =>
    if t = "" then dedupeNearGo scorer threshold kept rest
    else if kept.any (fun k => decide (threshold ≤ scorer t k)) then
      dedupeNearGo scorer threshold kept rest
    else dedupeNearGo scorer threshold (kept ++ [t]) rest

/-- `_dedupe_near` from `prompt_consolidator.py`. -/
def dedupe_near (scorer : Scorer) (tokens : List String)
    (threshold : ℚ := 92) : List String :=
  dedupeNearGo scorer threshold [] tokens

/-- The closed person-count tag pool `pc_pool` of `consolidate_algorithmic`. -/
def pcPool : List String :=
  ["solo", "duo", "group", "1girl", "1boy", "2girls", "2boys", "3girls",
   "3boys", "4girls", "4boys", "multiple girls", "multiple boys"]

/-- Membership in the person-count pool. -/
def isPcTag (t : String) : Bool := t ∈ pcPool

/-- Python `max(lst, key=len)` starting from a current best: a later
element replaces the best only when strictly longer, so the first longest
element wins. -/
def maxByLenGo (best : String) : List String → String
  | [] => best
  | x :: xs => if best.length < x.length then maxByLenGo x xs else maxByLenGo best xs

/-- Python `max(pc_seen, key=len)` (meaningful only on non-empty lists). -/
def maxByLen : List String → String
  | [] => ""
  | t :: rest => maxByLenGo t rest

/-- The person-count collapse pass of `consolidate_algorithmic`: when more
than one pool tag is present, remove them all and append the longest at
the end. -/
def pcCollapse (mapped : List String) : List String :=
  let pc_seen := mapped.filter (fun t => isPcTag t)
  if 1 < pc_seen.length then
    (mapped.filter (fun t => ¬ isPcTag t)) ++ [maxByLen pc_seen]
  else mapped

/-- Word characters for the regex word boundary `\b` (`[a-zA-Z0-9_]`). -/
def isWordChar (c : Char) : Bool := c.isAlphanum ∨ c = '_'

/-- A word boundary holds before the match if the previous character (if
any) is not a word character. -/
def boundaryBefore : Option Char → Bool
  | none => true
  | some p => ¬ isWordChar p

/-- A word boundary holds after the match if the next character (if any)
is not a word character. -/
def boundaryAfter : List Char → Bool
  | [] => true
  | d :: _ => ¬ isWordChar d

/-- Left-to-right scan of `re.sub(r"\bgloss lipstick\b", "lip gloss", x)`:
at each position either a word-bounded occurrence of the pattern is
replaced (continuing after it) or one character is emitted.  `fuel` only
drives termination and exceeds the list length at every call site. -/
def glossGo : Nat → Option Char → List Char → List Char
  | 0, _, l => l
  | _ + 1, _, [] => []
  | fuel + 1, prev, c :: rest =>
    if boundaryBefore prev ∧ "gloss lipstick".data.isPrefixOf (c :: rest) ∧
        boundaryAfter ((c :: rest).drop 14) then
      "lip gloss".data ++ glossGo fuel (some 'k') ((c :: rest).drop 14)
    else c :: glossGo fuel (some c) rest

/-- The `re.sub(r"\bgloss lipstick\b", "lip gloss", x)` rewrite applied to
each token of `consolidate_algorithmic`. -/
def glossSub (s : String) : String :=
  String.mk (glossGo (s.data.length + 1) none s.data)

/-- The noun list of `_merge_descriptor_groups`. -/
def nounList : List String :=
  ["pubic hair", "armpit hair", "lip gloss", "breasts", "ass", "skin",
   "areolas", "penis", "eyeliner", "blush", "eyeshadow", "brows",
   "fingernails", "lipstick"]

/-- The anchored noun match after `\s+`: the remainder must equal one of
the nouns exactly, where `$` also matches just before a single trailing
newline. -/
def nounAt (after : List Char) : Option String :=
  if String.mk after ∈ nounList then some (String.mk after)
  else if after.getLast? = some '\n' ∧ String.mk after.dropLast ∈ nounList then
    some (String.mk after.dropLast)
  else none

/-- Matching of `^(?P<desc>.+?)\s+(?P<noun>...)$` against a token: scan
split positions left to right (lazy `.+?`, whose `.` cannot match a
newline, so the descriptor must be newline-free); at a whitespace
character the whitespace run is consumed (`\s+`, greedy — the nouns
start with letters, so only the full run can precede a noun) and the
remainder must match a noun via `nounAt`.  Returns the raw descriptor
and the noun. -/
def matchNounGo (pre : List Char) : List Char → Option (String × String)
  | [] => none
  | c :: rest =>
    if isSpaceChar c ∧ pre ≠ [] ∧ '\n' ∉ pre then
      match nounAt ((c :: rest).dropWhile isSpaceChar) with
      | some noun => some (String.mk pre, noun)
      | none => matchNounGo (pre ++ [c]) rest
    else matchNounGo (pre ++ [c]) rest

/-- `re.match(noun_pattern, t)` of `_merge_descriptor_groups`. -/
def matchNoun (t : String) : Option (String × String) :=
  matchNounGo [] t.data

/-- `any(t == "lip gloss" or t.endswith(" lip gloss") for t in tokens)`. -/
def lipGlossPresent (tokens : List String) : Bool :=
  tokens.any (fun t => t = "lip gloss" ∨ " lip gloss".data.isSuffixOf t.data)

/-- The `lipstick`→`lip gloss` group redirection applied when a lip-gloss
token is present. -/
def adjustNoun (lip : Bool) (noun : String) : String :=
  if noun = "lipstick" ∧ lip then "lip gloss" else noun

/-- Per-noun accumulated state: the deduplicated descriptor words and the
index of the first token of the group. -/
structure GroupInfo where
  descs : List String
  firstIdx : Nat
  deriving Repr, DecidableEq

/-- Python `str.split()`: split on whitespace runs, dropping empties. -/
def splitWs (s : String) : List String :=
  ((splitOnChar ' ' (String.mk (s.data.map
      (fun c => if isSpaceChar c then ' ' else c))).data).map
    String.mk).filter (fun t => t ≠ "")

/-- Append the descriptor words not already present
(`if part not in groups[noun]["descs"]`). -/
def addParts (descs : List String) : List String → List String
  | [] => descs
  | p :: ps => if p ∈ descs then addParts descs ps else addParts (descs ++ [p]) ps

/-- Update the (insertion-ordered) group table for one matched token. -/
def updateGroups (noun desc : String) (idx : Nat) :
    List (String × GroupInfo) → List (String × GroupInfo)
  | [] => [(noun, ⟨if desc = "" then [] else addParts [] (splitWs desc), idx⟩)]
  | (n, gi) :: rest =>
    if n = noun then
      (n, ⟨if desc = "" then gi.descs else addParts gi.descs (splitWs desc),
           gi.firstIdx⟩) :: rest
    else (n, gi) :: updateGroups noun desc idx rest

/-- The first pass of `_merge_descriptor_groups`: build the group table. -/
def buildGroups (lip : Bool) (idx : Nat) :
    List String → List (String × GroupInfo) → List (String × GroupInfo)
  | [], groups => groups
  | t :: rest, groups =>
    match matchNoun t with
    | none => buildGroups lip (idx + 1) rest groups
    | some (d, noun0) =>
      buildGroups lip (idx + 1) rest
        (updateGroups (adjustNoun lip noun0) (stripStr d) idx groups)

/-- Association-list lookup on the group table. -/
def findGroup (noun : String) : List (String × GroupInfo) → Option GroupInfo
  | [] => none
  | (n, gi) :: rest => if n = noun then some gi else findGroup noun rest

/-- Python `" ".join(lst)`. -/
def joinSpace : List String → String
  | [] => ""
  | [t] => t
  | t :: rest => t ++ " " ++ joinSpace rest

/-- The second pass of `_merge_descriptor_groups`: emit the merged phrase
at the first index of each group, drop the other group members, and keep
everything else. -/
def mergeOut (lip : Bool) (groups : List (String × GroupInfo)) (idx : Nat) :
    List String → List String
  | [] => []
  | t :: rest =>
    match matchNoun t with
    | none => t :: mergeOut lip groups (idx + 1) rest
    | some (_, noun0) =>
      match findGroup (adjustNoun lip noun0) groups with
      | none => t :: mergeOut lip groups (idx + 1) rest
      | some gi =>
        if idx = gi.firstIdx then
          stripStr (joinSpace gi.descs ++ " " ++ adjustNoun lip noun0) ::
            mergeOut lip groups (idx + 1) rest
        else mergeOut lip groups (idx + 1) rest

/-- `_merge_descriptor_groups` from `consolidate_algorithmic`. -/
def mergeDescriptorGroups (tokens : List String) : List String :=
  let lip := lipGlossPresent tokens
  let groups := buildGroups lip 0 tokens []
  if groups = [] then tokens else mergeOut lip groups 0 tokens

/-- The exact-string dedup pass (`seen` set + insertion-order list). -/
def exactDedup (seen : List String) : List String → List String
  | [] => []
  | t :: rest =>
    if t ∈ seen then exactDedup seen rest
    else t :: exactDedup (t :: seen) rest

/-- The SFW substitution applied per phrase when `sfw_mode` is set. -/
def sfwReplace (t : String) : String :=
  if t = "nipples" ∨ t = "areolae" ∨ t = "erect nipples" then "covered nipples"
  else if t = "penis" then "covered penis"
  else if t = "anus" then "covered anus"
  else if t = "pubic hair" then "pubic hair peek"
  else t

/-- Python 3 `round(num/den)` for a non-negative exact fraction: round
half to even.  Python's `round` on a float is the half-to-even rounding
of the exact binary value, so applying `pyRound` to the dyadic fraction
produced by `fl64` below is exactly `int(round(x))` on the double `x`. -/
def pyRound (num den : Nat) : Nat :=
  if 2 * (num % den) < den then num / den
  else if den < 2 * (num % den) then num / den + 1
  else if num / den % 2 = 0 then num / den else num / den + 1

/-- `floor (log2 m)` (the index of the highest set bit), with explicit
fuel for structural recursion; every call passes `m` itself as fuel,
which exceeds the bit length for every `m`. -/
def floorLog2 : Nat → Nat → Nat
  | 0, _ => 0
  | fuel + 1, m => if m ≤ 1 then 0 else floorLog2 fuel (m / 2) + 1

/-- IEEE binary64 rounding of an integer: round `m` to 53 significant
bits, ties to even.  Scaled appropriately this is the rounding step of
every double operation used below (int-to-float conversion and the
product with a constant significand), exact below the overflow range. -/
def fl64 (m : Nat) : Nat :=
  let e := floorLog2 m m
  if e ≤ 52 then m
  else
    let k := e - 52
    let q := m / 2 ^ k
    let r := m % 2 ^ k
    let h := 2 ^ (k - 1)
    let q' := if r < h then q
      else if h < r then q + 1
      else if q % 2 = 0 then q else q + 1
    q' * 2 ^ k

/-- The double `0.35` is exactly `6305039478318694 / 2^54`; its
numerator and denominator. -/
def num035 : Nat := 6305039478318694

/-- `2^54`, the denominator of the double `0.35`. -/
def den035 : Nat := 18014398509481984

/-- The double `0.85` is exactly `7656119366529843 / 2^53`; its
numerator and denominator. -/
def num085 : Nat := 7656119366529843

/-- `2^53`, the denominator of the double `0.85`. -/
def den085 : Nat := 9007199254740992

/-- `min_keep = max(10, int(round(0.35 * original_n)))`, with the float
computation modelled exactly: `n` is converted to a double (`fl64 n`),
multiplied by the double `0.35` with the product rounded to a double
again (`fl64` of the scaled numerator), and rounded half-to-even to an
int.  This agrees with CPython for every `n` below the binary64 overflow
range — including the sizes such as `n = 90` where the float product
`31.499999999999996` rounds to 31 although the exact fraction `31.5`
would round to 32. -/
def minKeepFn (n : Nat) : Nat :=
  max 10 (pyRound (fl64 (num035 * fl64 n)) den035)

/-- `target = max(min_keep, int(round(0.85 * original_n)))` of
`_soft_compact_fallback`, with the float computation modelled exactly as
in `minKeepFn`. -/
def targetFn (n : Nat) : Nat :=
  max (minKeepFn n) (pyRound (fl64 (num085 * fl64 n)) den085)

/-- The retention-floor top-up loop of `consolidate_algorithmic`: while
the output is below `min_keep`, append the normalized form of the next
original token not already present (`have'` mirrors the Python `have`
set, whose members all occur in `out`). -/
def floorTopUp (minKeep : Nat) (out have' : List String) :
    List String → List String
  | [] => out
  | tok :: rest =>
    if minKeep ≤ out.length then out
    else
      let key := normKey tok
      if key ∈ have' then floorTopUp minKeep out have' rest
      else floorTopUp minKeep (out ++ [key]) (key :: have') rest

/-- The pipeline of `consolidate_algorithmic` up to (and including) the
SFW gate, on an already-split token list. -/
def consolidateCore (scorer : Scorer) (cfg : ConsolidationConfig)
    (tokens : List String) : List String :=
  let mapped := tokens.map (alias_or_canonical scorer cfg)
  let m2 := pcCollapse mapped
  let m3 := m2.filter (fun t => t ≠ "hair")
  let m4 := m3.map glossSub
  let m5 := mergeDescriptorGroups m4
  let m6 := dedupe_near scorer m5 94
  let m7 := exactDedup [] m6
  if cfg.sfw_mode then m7.map sfwReplace else m7

/-- The full output token list of `consolidate_algorithmic` (pipeline plus
retention-floor enforcement). -/
def consolidateOut (scorer : Scorer) (cfg : ConsolidationConfig)
    (tokens : List String) : List String :=
  let out := consolidateCore scorer cfg tokens
  floorTopUp (minKeepFn tokens.length) out out tokens

/-- `consolidate_algorithmic` from `prompt_consolidator.py`. -/
def consolidate_algorithmic (scorer : Scorer) (input_text : String)
    (cfg : ConsolidationConfig) : String :=
  let tokens := split_and_clean input_text
  if tokens = [] then ""
  else joinComma (consolidateOut scorer cfg tokens)

/-- The keep-walk of `_soft_compact_fallback`, with the Python `keep`
accumulator: once `target` tokens are kept every token is appended;
before that, members of the lowercased drift set are skipped. -/
def softWalk (driftSet : List String) (target : Nat) (keep : List String) :
    List String → List String
  | [] => keep
  | t :: rest =>
    if target ≤ keep.length then softWalk driftSet target (keep ++ [t]) rest
    else if lowerStr t ∈ driftSet then softWalk driftSet target keep rest
    else softWalk driftSet target (keep ++ [t]) rest

/-- Lexicographic `≤` on character lists by code point (Python string
comparison). -/
def lexLe : List Char → List Char → Bool
  | [], _ => true
  | _ :: _, [] => false
  | a :: as, b :: bs =>
    if a = b then lexLe as bs else a.toNat < b.toNat

/-- Stable insertion for the case-insensitive sort
(`sorted(toks, key=lambda s: s.lower())`). -/
def insertCI (x : String) : List String → List String
  | [] => [x]
  | y :: ys =>
    if lexLe (lowerStr x).data (lowerStr y).data then x :: y :: ys
    else y :: insertCI x ys

/-- Stable sort by the case-insensitive key (Python `sorted` with
`key=str.lower`). -/
def sortCI : List String → List String
  | [] => []
  | x :: xs => insertCI x (sortCI xs)

/-- `_soft_compact_fallback` from `prompt_consolidator.py`. -/
def soft_compact_fallback (input_text : String) (cfg : ConsolidationConfig) :
    String :=
  let toks := split_and_clean input_text
  if toks = [] then ""
  else
    let target := targetFn toks.length
    let driftSet := cfg.drift.map lowerStr
    let keep := softWalk driftSet target [] toks
    if keep = [] ∨ joinComma keep = input_text then joinComma (sortCI toks)
    else joinComma keep

/-- A Python runtime value as seen by `dedupe_and_clean_prompt`: either a
string or one of the non-string values callers may pass. -/
inductive PyVal where
  | str (s : String)
  | intVal (n : Int)
  | noneVal
  deriving Repr, DecidableEq

/-- Whether a `PyVal` is a string (`isinstance(text, str)`). -/
def PyVal.isStr : PyVal → Bool
  | .str _ => true
  | _ => false

/-- `dedupe_and_clean_prompt` from `prompt_dedupe.py`: non-strings and the
empty string short-circuit (`return text if isinstance(text, str) else ""`);
otherwise split on commas, strip, drop empties and exact duplicates
order-preservingly, and re-join. -/
def dedupe_and_clean_prompt : PyVal → PyVal
  | .str s =>
    if s = "" then .str s
    else
      .str (joinComma (exactDedup []
        (((splitOnChar ',' s.data).map (fun l => String.mk (stripChars l))).filter
          (fun p => p ≠ ""))))
  | _ => .str ""

/-- A filesystem model for `ConsolidationConfig.__init__`: maps a path to
its contents, `none` when the file is missing or unreadable (Python
`OSError`). -/
abbrev FileSys := String → Option String

/-- How `ConsolidationConfig.__init__` can raise: an `OSError` from a bare
`open`, or a `json.load` failure. -/
inductive LoadError where
  | osError (path : String)
  | jsonError (path : String)
  deriving Repr, DecidableEq

/-- `ConsolidationConfig._read_lines`: strip every line, keep the
non-empty ones, and degrade to `[]` when the file cannot be read. -/
def read_lines (fs : FileSys) (path : String) : List String :=
  match fs path with
  | none => []
  | some contents =>
    ((splitOnChar '\n' contents.data).map (fun l => String.mk (stripChars l))).filter
      (fun t => t ≠ "")

/-- `ConsolidationConfig._resolve_data_dir`: prefer `<base>/data` when its
sentinel exists, then the legacy layout, then fall back to `<base>/data`. -/
def resolve_data_dir (fs : FileSys) (base_dir : String) : String :=
  let newDir := base_dir ++ "/data"
  let legacyDir := base_dir ++ "/essence-extractor/data"
  if (fs (newDir ++ "/allowlists/allowlist.txt")).isSome then newDir
  else if (fs (legacyDir ++ "/allowlists/allowlist.txt")).isSome then legacyDir
  else newDir

/-- `ConsolidationConfig.__init__`, with `json.load` modelled by explicit
parser parameters (the JSON decoder is external library code): the four
line files go through `read_lines` (which never fails), while the alias
map and modifiers are opened bare — a missing file raises `OSError` and a
malformed one raises from `json.load`, both propagating to the caller. -/
def configInit (fs : FileSys)
    (parseAlias : String → Option (List (String × String)))
    (parseModifiers : String → Option (List (String × String)))
    (base_dir : String) (sfw_mode : Bool) :
    Except LoadError ConsolidationConfig :=
  let dataDir := resolve_data_dir fs base_dir
  let allowlist := read_lines fs (dataDir ++ "/allowlists/allowlist.txt")
  let weightable := read_lines fs (dataDir ++ "/allowlists/weightable_tags.txt")
  let media := read_lines fs (dataDir ++ "/allowlists/media_tags.txt")
  let drift := read_lines fs (dataDir ++ "/allowlists/generic_drift.txt")
  match fs (dataDir ++ "/maps/alias_map.json") with
  | none => .error (.osError (dataDir ++ "/maps/alias_map.json"))
  | some aliasRaw =>
    match parseAlias aliasRaw with
    | none => .error (.jsonError (dataDir ++ "/maps/alias_map.json"))
    | some am =>
      match fs (dataDir ++ "/features/modifiers.json") with
      | none => .error (.osError (dataDir ++ "/features/modifiers.json"))
      | some modRaw =>
        match parseModifiers modRaw with
        | none => .error (.jsonError (dataDir ++ "/features/modifiers.json"))
        | some mods =>
          .ok { allowlist := allowlist, weightable := weightable,
                media := media, drift := drift, alias_map := am,
                modifiers := mods, sfw_mode := sfw_mode }

/-- The alias map exploded into flat `(alias, canonical)` pairs, in scan
order (spec section 4.3 / 7: many-aliases-to-one-canonical lookup). -/
def aliasPairs (am : List (String × String)) : List (String × String) :=
  am.flatMap (fun p => (splitCommaTrim p.1).map (fun a => (a, p.2)))

/-- Modelled from the spec (section 4.3, claim C4 wording): canonicalize a
phrase by (1) lowercasing and mapping underscores to spaces, returning an
exact allowlist member unchanged; (2) otherwise returning the canonical
value of the first comma-joined alias-map entry containing the normalized
phrase as a trimmed alias; (3) otherwise taking the best fuzzy score
against the allowlist and returning the first best-scoring entry when the
score is at least 90; (4) otherwise returning the normalized phrase. -/
def canonicalizeSpec (scorer : Scorer) (cfg : ConsolidationConfig)
    (token : String) : String :=
  let key := normKey token
  if key ∈ cfg.allowlist then key
  else
    match ((aliasPairs cfg.alias_map).find? (fun p => p.1 = key)) with
    | some pr => pr.2
    | none =>
      match (cfg.allowlist.map (scorer key)).max? with
      | none => key
      | some best =>
        if 90 ≤ best then
          match cfg.allowlist.find? (fun c => scorer key c = best) with
          | some cand => cand
          | none => key
        else key

theorem find?_append_eq {α : Type} (p : α → Bool) (l₁ l₂ : List α) :
    (l₁ ++ l₂).find? p =
      match l₁.find? p with
      | some a => some a
      | none => l₂.find? p := by
  induction l₁ with
  | nil => simp
  | cons a as ih =>
    by_cases h : p a
    · simp [List.find?, h]
    · simp only [List.cons_append, List.find?, h]
      exact ih

theorem find?_aliasBlock (key canon : String) (aliases : List String) :
    (aliases.map (fun a => (a, canon))).find? (fun p => p.1 = key) =
      if key ∈ aliases then some (key, canon) else none := by
  induction aliases with
  | nil => simp
  | cons a as ih =>
    by_cases h : a = key
    · subst h
      simp [List.find?]
    · simp only [List.map_cons, List.find?, List.mem_cons]
      have : (decide ((a, canon).1 = key)) = false := by
        simp [h]
      rw [this]
      simp only [ih]
      by_cases hm : key ∈ as
      · simp [hm, h, Ne.symm h]
      · simp [hm, h, Ne.symm h]

theorem aliasScan_eq_find? (key : String) (am : List (String × String)) :
    aliasScan key am =
      ((aliasPairs am).find? (fun p => p.1 = key)).map Prod.snd := by
  induction am with
  | nil => simp [aliasScan, aliasPairs]
  | cons pr rest ih =>
    obtain ⟨ak, canon⟩ := pr
    simp only [aliasScan, aliasPairs, List.flatMap_cons, find?_append_eq,
      find?_aliasBlock]
    by_cases h : key ∈ splitCommaTrim ak
    · simp [h]
    · simp only [h, if_neg, ite_false]
      simpa [aliasPairs] using ih

theorem le_foldl_max {α : Type} [LinearOrder α] (l : List α) (b : α) :
    b ≤ l.foldl max b := by
  induction l generalizing b with
  | nil => exact le_refl b
  | cons a as ih => exact le_trans (le_max_left b a) (ih (max b a))

theorem extractOneGo_snd (scorer : Scorer) (key : String) (l : List String)
    (best : String × ℚ) :
    (extractOneGo scorer key l best).2 = (l.map (scorer key)).foldl max best.2 := by
  induction l generalizing best with
  | nil => simp [extractOneGo]
  | cons c rest ih =>
    simp only [extractOneGo, List.map_cons, List.foldl_cons]
    by_cases h : best.2 < scorer key c
    · rw [if_pos h, ih]
      simp [max_eq_right (le_of_lt h)]
    · rw [if_neg h, ih]
      simp [max_eq_left (le_of_not_lt h)]

theorem extractOneGo_stay (scorer : Scorer) (key : String) (l : List String)
    (best : String × ℚ)
    (h : (l.map (scorer key)).foldl max best.2 ≤ best.2) :
    extractOneGo scorer key l best = best := by
  induction l generalizing best with
  | nil => simp [extractOneGo]
  | cons c rest ih =>
    simp only [List.map_cons, List.foldl_cons] at h
    have hcb : best.2 ⊔ scorer key c ≤ best.2 :=
      le_trans (le_foldl_max _ _) h
    have hc : scorer key c ≤ best.2 := le_trans (le_max_right _ _) hcb
    have hmax : best.2 ⊔ scorer key c = best.2 := max_eq_left hc
    rw [hmax] at h
    simp only [extractOneGo, if_neg (not_lt_of_le hc)]
    exact ih best h

theorem extractOneGo_first_argmax (scorer : Scorer) (key : String)
    (l : List String) (best : String × ℚ)
    (h : best.2 < (l.map (scorer key)).foldl max best.2) :
    ∃ cand, l.find? (fun c =>
        scorer key c = (l.map (scorer key)).foldl max best.2) = some cand ∧
      (extractOneGo scorer key l best).1 = cand := by
  induction l generalizing best with
  | nil => simp only [List.map_nil, List.foldl_nil] at h; exact absurd h (lt_irrefl _)
  | cons c rest ih =>
    simp only [List.map_cons, List.foldl_cons] at h ⊢
    by_cases hc : best.2 < scorer key c
    · have hmax : best.2 ⊔ scorer key c = scorer key c := max_eq_right (le_of_lt hc)
      rw [hmax] at h
      simp only [hmax]
      simp only [extractOneGo, if_pos hc]
      by_cases hrest : scorer key c < (rest.map (scorer key)).foldl max (scorer key c)
      · obtain ⟨cand, hfind, hres⟩ := ih (c, scorer key c) hrest
        refine ⟨cand, ?_, hres⟩
        simp only [List.find?]
        have hne : (decide (scorer key c =
            (rest.map (scorer key)).foldl max (scorer key c))) = false := by
          simp only [decide_eq_false_iff_not]
          intro heq
          exact (ne_of_lt hrest) heq
        rw [hne]
        exact hfind
      · have heq : (rest.map (scorer key)).foldl max (scorer key c) = scorer key c :=
          le_antisymm (le_of_not_lt hrest) (le_foldl_max _ _)
        refine ⟨c, ?_, ?_⟩
        · simp only [List.find?, heq]
          simp
        · rw [extractOneGo_stay scorer key rest (c, scorer key c) (le_of_eq heq)]
    · have hcb : scorer key c ≤ best.2 := le_of_not_lt hc
      have hmax : best.2 ⊔ scorer key c = best.2 := max_eq_left hcb
      rw [hmax] at h
      simp only [hmax]
      simp only [extractOneGo, if_neg hc]
      obtain ⟨cand, hfind, hres⟩ := ih best h
      refine ⟨cand, ?_, hres⟩
      simp only [List.find?]
      have hne : (decide (scorer key c =
          (rest.map (scorer key)).foldl max best.2)) = false := by
        simp only [decide_eq_false_iff_not]
        intro heq
        exact (not_le_of_lt h) (heq ▸ hcb)
      rw [hne]
      exact hfind

/-- C4: `_alias_or_canonical` realizes the spec's strict first-match-wins
canonicalization order: exact allowlist membership of the
lowercased/underscore-normalized phrase first, then the first trimmed
alias match inside the comma-joined alias-map keys, then the best fuzzy
candidate when its score is at least 90 (first best-scoring allowlist
entry), and otherwise the normalized phrase unchanged. -/
theorem c4_canonicalizer_first_match_order (scorer : Scorer)
    (cfg : ConsolidationConfig) (token : String) :
    alias_or_canonical scorer cfg token = canonicalizeSpec scorer cfg token := by
  unfold alias_or_canonical canonicalizeSpec
  by_cases hmem : normKey token ∈ cfg.allowlist
  · simp [hmem]
  · simp only [hmem, ite_false, if_false]
    rw [aliasScan_eq_find?]
    cases hfind : (aliasPairs cfg.alias_map).find?
        (fun p => p.1 = normKey token) with
    | some pr => simp
    | none =>
      simp only [Option.map_none']
      cases hlist : cfg.allowlist with
      | nil => simp [extractOne, List.max?]
      | cons c rest =>
        simp only [extractOne, List.map_cons, List.max?]
        have hs := extractOneGo_snd scorer (normKey token) rest
          (c, scorer (normKey token) c)
        by_cases h90 : (90 : ℚ) ≤ (rest.map (scorer (normKey token))).foldl max
            (scorer (normKey token) c)
        · by_cases hstay : (rest.map (scorer (normKey token))).foldl max
              (scorer (normKey token) c) ≤ scorer (normKey token) c
          · have heq : (rest.map (scorer (normKey token))).foldl max
                (scorer (normKey token) c) = scorer (normKey token) c :=
              le_antisymm hstay (le_foldl_max _ _)
            rw [extractOneGo_stay scorer (normKey token) rest _ hstay]
            simp only [List.find?, heq]
            simp [h90, heq ▸ h90]
          · have hlt : (c, scorer (normKey token) c).2 <
                (rest.map (scorer (normKey token))).foldl max
                  (scorer (normKey token) c) := lt_of_not_le hstay
            obtain ⟨cand, hfindr, hres⟩ :=
              extractOneGo_first_argmax scorer (normKey token) rest
                (c, scorer (normKey token) c) hlt
            have hsplit : (extractOneGo scorer (normKey token) rest
                (c, scorer (normKey token) c)) =
                ((extractOneGo scorer (normKey token) rest
                  (c, scorer (normKey token) c)).1,
                 (extractOneGo scorer (normKey token) rest
                  (c, scorer (normKey token) c)).2) := rfl
            rw [hsplit, hres, hs]
            simp only [List.find?]
            have hne : (decide (scorer (normKey token) c =
                (rest.map (scorer (normKey token))).foldl max
                  (scorer (normKey token) c))) = false := by
              simp only [decide_eq_false_iff_not]
              exact ne_of_lt hlt
            rw [hne, hfindr]
        · have : (extractOneGo scorer (normKey token) rest
              (c, scorer (normKey token) c)).2 =
              (rest.map (scorer (normKey token))).foldl max
                (scorer (normKey token) c) := hs
          have hsplit : (extractOneGo scorer (normKey token) rest
              (c, scorer (normKey token) c)) =
              ((extractOneGo scorer (normKey token) rest
                (c, scorer (normKey token) c)).1,
               (extractOneGo scorer (normKey token) rest
                (c, scorer (normKey token) c)).2) := rfl
          rw [hsplit, this]
          simp [h90]

/-- Modelled from the spec (section 4.8, as amended): the soft-compact
walk described with a running kept count instead of an accumulator: while
fewer than `target` tokens have been kept, members of the lowercased drift
set are dropped (with no floor check) and other tokens kept; from the
moment `target` tokens are kept, every remaining token — drift or not —
is passed through. -/
def softWalkSpec (driftSet : List String) (target : Nat) (count : Nat) :
    List String → List String
  | [] => []
  | t :: rest =>
    if target ≤ count then t :: softWalkSpec driftSet target (count + 1) rest
    else if lowerStr t ∈ driftSet then softWalkSpec driftSet target count rest
    else t :: softWalkSpec driftSet target (count + 1) rest

/-- Modelled from the spec (section 4.8, as amended): the fallback
compactor with `min_keep = max(10, round(0.35·N))` and
`target = max(min_keep, round(0.85·N))` (Python banker's rounding of the
float products), the gate-style walk above, and the case-insensitively
sorted stable output when the walk keeps nothing or changes nothing. -/
def soft_compact_spec (input_text : String) (cfg : ConsolidationConfig) :
    String :=
  let toks := split_and_clean input_text
  if toks = [] then ""
  else
    let keep := softWalkSpec (cfg.drift.map lowerStr) (targetFn toks.length) 0 toks
    if keep = [] ∨ joinComma keep = input_text then joinComma (sortCI toks)
    else joinComma keep

theorem softWalk_eq_spec (driftSet : List String) (target : Nat)
    (keep : List String) (l : List String) :
    softWalk driftSet target keep l =
      keep ++ softWalkSpec driftSet target keep.length l := by
  induction l generalizing keep with
  | nil => simp [softWalk, softWalkSpec]
  | cons t rest ih =>
    simp only [softWalk, softWalkSpec]
    by_cases h1 : target ≤ keep.length
    · rw [if_pos h1, if_pos h1, ih]
      simp
    · rw [if_neg h1, if_neg h1]
      by_cases h2 : lowerStr t ∈ driftSet
      · rw [if_pos h2, if_pos h2, ih]
      · rw [if_neg h2, if_neg h2, ih]
        simp

/-- C5 (amended): `_soft_compact_fallback` equals the spec-style
description in which `target` acts as a "no filtering from this point on"
gate — drift tokens are dropped only while fewer than `target` tokens
have been kept and are passed through afterwards — with round-half-even
thresholds and the sorted-fallback case. -/
theorem c5_soft_compact_gate_walk (input_text : String)
    (cfg : ConsolidationConfig) :
    soft_compact_fallback input_text cfg = soft_compact_spec input_text cfg := by
  unfold soft_compact_fallback soft_compact_spec
  by_cases h : split_and_clean input_text = []
  · simp [h]
  · simp only [h, ite_false, if_false]
    rw [softWalk_eq_spec]
    simp

theorem floorTopUp_mem (mk : Nat) (out have' toks : List String)
    (x : String) (hx : x ∈ out) : x ∈ floorTopUp mk out have' toks := by
  induction toks generalizing out have' with
  | nil => exact hx
  | cons t rest ih =>
    simp only [floorTopUp]
    by_cases h1 : mk ≤ out.length
    · rw [if_pos h1]; exact hx
    · rw [if_neg h1]
      by_cases h2 : normKey t ∈ have'
      · rw [if_pos h2]; exact ih out have' hx
      · rw [if_neg h2]
        exact ih (out ++ [normKey t]) (normKey t :: have')
          (List.mem_append_left _ hx)

theorem floorTopUp_floor (mk : Nat) (out have' toks : List String)
    (hinv : ∀ x ∈ have', x ∈ out) :
    mk ≤ (floorTopUp mk out have' toks).length ∨
      ∀ t ∈ toks, normKey t ∈ floorTopUp mk out have' toks := by
  induction toks generalizing out have' with
  | nil => exact Or.inr (by simp)
  | cons t rest ih =>
    simp only [floorTopUp]
    by_cases h1 : mk ≤ out.length
    · rw [if_pos h1]; exact Or.inl h1
    · rw [if_neg h1]
      by_cases h2 : normKey t ∈ have'
      · rw [if_pos h2]
        rcases ih out have' hinv with hl | hr
        · exact Or.inl hl
        · refine Or.inr ?_
          intro t' ht'
          rcases List.mem_cons.mp ht' with rfl | hmem
          · exact floorTopUp_mem mk out have' rest _ (hinv _ h2)
          · exact hr t' hmem
      · rw [if_neg h2]
        have hinv' : ∀ x ∈ normKey t :: have', x ∈ out ++ [normKey t] := by
          intro x hx
          rcases List.mem_cons.mp hx with rfl | hx'
          · exact List.mem_append_right _ (List.mem_singleton_self _)
          · exact List.mem_append_left _ (hinv _ hx')
        rcases ih (out ++ [normKey t]) (normKey t :: have') hinv' with hl | hr
        · exact Or.inl hl
        · refine Or.inr ?_
          intro t' ht'
          rcases List.mem_cons.mp ht' with rfl | hmem
          · exact floorTopUp_mem mk _ _ rest _
              (List.mem_append_right _ (List.mem_singleton_self _))
          · exact hr t' hmem

theorem floorTopUp_nodup (mk : Nat) (out have' toks : List String)
    (hnd : out.Nodup) (hinv : ∀ x ∈ out, x ∈ have') :
    (floorTopUp mk out have' toks).Nodup := by
  induction toks generalizing out have' with
  | nil => exact hnd
  | cons t rest ih =>
    simp only [floorTopUp]
    by_cases h1 : mk ≤ out.length
    · rw [if_pos h1]; exact hnd
    · rw [if_neg h1]
      by_cases h2 : normKey t ∈ have'
      · rw [if_pos h2]; exact ih out have' hnd hinv
      · rw [if_neg h2]
        have hkey : normKey t ∉ out := fun hk => h2 (hinv _ hk)
        have hnd' : (out ++ [normKey t]).Nodup := by
          simp [List.nodup_append, hnd, hkey]
        have hinv' : ∀ x ∈ out ++ [normKey t], x ∈ normKey t :: have' := by
          intro x hx
          rcases List.mem_append.mp hx with hx' | hx'
          · exact List.mem_cons_of_mem _ (hinv _ hx')
          · rcases List.mem_singleton.mp hx' with rfl
            exact List.mem_cons_self _ _
        exact ih _ _ hnd' hinv'

theorem floorTopUp_of_le (mk : Nat) (out have' toks : List String)
    (h : mk ≤ out.length) : floorTopUp mk out have' toks = out := by
  cases toks with
  | nil => rfl
  | cons t rest => simp only [floorTopUp, if_pos h]

theorem exactDedup_sublist (seen l : List String) :
    (exactDedup seen l).Sublist l := by
  induction l generalizing seen with
  | nil => simp [exactDedup]
  | cons t rest ih =>
    simp only [exactDedup]
    by_cases h : t ∈ seen
    · rw [if_pos h]
      exact (ih seen).trans (List.sublist_cons_self t rest)
    · rw [if_neg h]
      exact (ih (t :: seen)).cons₂ t

theorem exactDedup_not_mem_seen (seen l : List String) (x : String)
    (hx : x ∈ exactDedup seen l) : x ∉ seen := by
  induction l generalizing seen with
  | nil => simp [exactDedup] at hx
  | cons t rest ih =>
    simp only [exactDedup] at hx
    by_cases h : t ∈ seen
    · rw [if_pos h] at hx
      exact ih seen hx
    · rw [if_neg h] at hx
      rcases List.mem_cons.mp hx with rfl | hx'
      · exact h
      · intro hs
        exact ih (t :: seen) hx' (List.mem_cons_of_mem _ hs)

theorem exactDedup_nodup (seen l : List String) :
    (exactDedup seen l).Nodup := by
  induction l generalizing seen with
  | nil => simp [exactDedup]
  | cons t rest ih =>
    simp only [exactDedup]
    by_cases h : t ∈ seen
    · rw [if_pos h]; exact ih seen
    · rw [if_neg h]
      refine List.nodup_cons.mpr ⟨?_, ih (t :: seen)⟩
      intro hmem
      exact exactDedup_not_mem_seen (t :: seen) rest t hmem
        (List.mem_cons_self _ _)

theorem exactDedup_eq_self (seen l : List String) (hnd : l.Nodup)
    (h : ∀ x ∈ l, x ∉ seen) : exactDedup seen l = l := by
  induction l generalizing seen with
  | nil => rfl
  | cons t rest ih =>
    simp only [exactDedup]
    rw [if_neg (h t (List.mem_cons_self _ _))]
    congr 1
    refine ih (t :: seen) (List.nodup_cons.mp hnd).2 ?_
    intro x hx hmem
    rcases List.mem_cons.mp hmem with rfl | hx'
    · exact (List.nodup_cons.mp hnd).1 hx
    · exact h x (List.mem_cons_of_mem _ hx) hx'

theorem dedupeNearGo_sublist (scorer : Scorer) (thr : ℚ)
    (kept l : List String) :
    (dedupeNearGo scorer thr kept l).Sublist (kept ++ l) := by
  induction l generalizing kept with
  | nil => simp [dedupeNearGo]
  | cons t rest ih =>
    simp only [dedupeNearGo]
    by_cases h1 : t = ""
    · rw [if_pos h1]
      exact (ih kept).trans
        (List.Sublist.append_left (List.sublist_cons_self t rest) kept)
    · rw [if_neg h1]
      by_cases h2 : kept.any (fun k => decide (thr ≤ scorer t k))
      · rw [if_pos h2]
        exact (ih kept).trans
          (List.Sublist.append_left (List.sublist_cons_self t rest) kept)
      · rw [if_neg h2]
        have := ih (kept ++ [t])
        rwa [List.append_assoc, List.singleton_append] at this

theorem pcCollapse_of_le_one (l : List String)
    (h : (l.filter (fun t => isPcTag t)).length ≤ 1) : pcCollapse l = l := by
  simp only [pcCollapse]
  rw [if_neg (not_lt_of_le h)]

theorem splitOnChar_ne_nil (c : Char) (l : List Char) : splitOnChar c l ≠ [] := by
  cases l with
  | nil => simp [splitOnChar]
  | cons x xs =>
    simp only [splitOnChar]
    by_cases h : x = c
    · simp [h]
    · rw [if_neg h]
      cases splitOnChar c xs <;> simp

theorem splitOnChar_of_not_mem (c : Char) (l : List Char) (h : c ∉ l) :
    splitOnChar c l = [l] := by
  induction l with
  | nil => rfl
  | cons x xs ih =>
    have hxc : ¬ x = c := by
      intro he; subst he; exact h (List.mem_cons_self _ _)
    have hmem : c ∉ xs := fun hx2 => h (List.mem_cons_of_mem _ hx2)
    simp only [splitOnChar, if_neg hxc, ih hmem]

theorem splitOnChar_append_sep (c : Char) (a b : List Char) (ha : c ∉ a) :
    splitOnChar c (a ++ c :: b) = a :: splitOnChar c b := by
  induction a with
  | nil => simp [splitOnChar]
  | cons x xs ih =>
    have hxc : ¬ x = c := by
      intro he; subst he; exact ha (List.mem_cons_self _ _)
    have hmem : c ∉ xs := fun hx2 => ha (List.mem_cons_of_mem _ hx2)
    simp only [List.cons_append, splitOnChar, if_neg hxc]
    rw [List.append_eq, ih hmem]

theorem stripChars_cons_space (l : List Char) :
    stripChars (' ' :: l) = stripChars l := by
  simp [stripChars, List.dropWhile_cons, isSpaceChar]

theorem split_and_clean_joinComma (ts : List String) (h0 : ts ≠ [])
    (h1 : ∀ t ∈ ts, t ≠ "" ∧ stripStr t = t ∧ ',' ∉ t.data) :
    split_and_clean (joinComma ts) = ts := by
  induction ts with
  | nil => exact absurd rfl h0
  | cons t rest ih =>
    obtain ⟨hne, hstrip, hcomma⟩ := h1 t (List.mem_cons_self _ _)
    have hstrip' : String.mk (stripChars t.data) = t := hstrip
    cases rest with
    | nil =>
      simp only [joinComma, split_and_clean]
      rw [splitOnChar_of_not_mem ',' t.data hcomma]
      simp only [List.map_cons, List.map_nil, hstrip']
      simp [hne]
    | cons r rest' =>
      have hjoin : (joinComma (t :: r :: rest')).data =
          t.data ++ ',' :: ' ' :: (joinComma (r :: rest')).data := by
        show (t ++ ", " ++ joinComma (r :: rest')).data = _
        rw [String.data_append, String.data_append]
        simp
      simp only [split_and_clean, hjoin]
      rw [splitOnChar_append_sep ',' t.data _ hcomma]
      have hrest := ih (by simp) (fun x hx => h1 x (List.mem_cons_of_mem _ hx))
      simp only [split_and_clean] at hrest
      cases hsp : splitOnChar ',' (joinComma (r :: rest')).data with
      | nil => exact absurd hsp (splitOnChar_ne_nil _ _)
      | cons y ys =>
        have hsp2 : splitOnChar ',' (' ' :: (joinComma (r :: rest')).data) =
            (' ' :: y) :: ys := by
          simp only [splitOnChar]
          rw [if_neg (by decide), hsp]
        rw [hsp2]
        rw [hsp] at hrest
        simp only [List.map_cons, hstrip', stripChars_cons_space]
        rw [List.filter_cons_of_pos (by simpa using hne)]
        simp only [List.map_cons] at hrest
        exact congrArg (List.cons t) hrest

theorem maxByLenGo_mem (best : String) (xs : List String) :
    maxByLenGo best xs ∈ best :: xs := by
  induction xs generalizing best with
  | nil => simp [maxByLenGo]
  | cons x xs ih =>
    simp only [maxByLenGo]
    by_cases h : best.length < x.length
    · rw [if_pos h]
      exact List.mem_cons_of_mem _ (ih x)
    · rw [if_neg h]
      rcases List.mem_cons.mp (ih best) with he | hmem
      · rw [he]; exact List.mem_cons_self _ _
      · exact List.mem_cons_of_mem _ (List.mem_cons_of_mem _ hmem)

theorem maxByLenGo_le (best : String) (xs : List String) :
    ∀ y ∈ best :: xs, y.length ≤ (maxByLenGo best xs).length := by
  induction xs generalizing best with
  | nil =>
    intro y hy
    rcases List.mem_singleton.mp hy with rfl
    exact le_refl _
  | cons x xs ih =>
    intro y hy
    simp only [maxByLenGo]
    by_cases h : best.length < x.length
    · rw [if_pos h]
      rcases List.mem_cons.mp hy with he | hy'
      · rw [he]
        exact le_trans (le_of_lt h) (ih x x (List.mem_cons_self _ _))
      · exact ih x y hy'
    · rw [if_neg h]
      rcases List.mem_cons.mp hy with he | hy'
      · rw [he]
        exact ih best best (List.mem_cons_self _ _)
      · rcases List.mem_cons.mp hy' with he2 | hy''
        · rw [he2]
          exact le_trans (le_of_not_lt h) (ih best best (List.mem_cons_self _ _))
        · exact ih best y (List.mem_cons_of_mem _ hy'')

theorem maxByLen_mem (l : List String) (h : l ≠ []) : maxByLen l ∈ l := by
  cases l with
  | nil => exact absurd rfl h
  | cons t rest => exact maxByLenGo_mem t rest

theorem maxByLen_le (l : List String) : ∀ y ∈ l, y.length ≤ (maxByLen l).length := by
  cases l with
  | nil => intro y hy; simp at hy
  | cons t rest => exact fun y hy => maxByLenGo_le t rest y hy

/-- C7: when more than one person-count tag is present after
canonicalization, the collapse pass keeps exactly one pool tag — a
longest one — removed from its slot and appended once at the end of the
filtered sequence; with one or zero pool tags the pass is the identity. -/
theorem c7_person_count_collapse (l : List String) :
    (1 < (l.filter (fun t => isPcTag t)).length →
      pcCollapse l = (l.filter (fun t => ¬ isPcTag t)) ++
          [maxByLen (l.filter (fun t => isPcTag t))] ∧
        maxByLen (l.filter (fun t => isPcTag t)) ∈
          l.filter (fun t => isPcTag t) ∧
        (∀ t ∈ l.filter (fun t => isPcTag t),
          t.length ≤ (maxByLen (l.filter (fun t => isPcTag t))).length) ∧
        (pcCollapse l).filter (fun t => isPcTag t) =
          [maxByLen (l.filter (fun t => isPcTag t))]) ∧
    ((l.filter (fun t => isPcTag t)).length ≤ 1 → pcCollapse l = l) := by
  constructor
  · intro h
    have hne : l.filter (fun t => isPcTag t) ≠ [] := by
      intro hnil
      rw [hnil] at h
      simp at h
    have hcollapse : pcCollapse l = (l.filter (fun t => ¬ isPcTag t)) ++
        [maxByLen (l.filter (fun t => isPcTag t))] := by
      simp only [pcCollapse]
      rw [if_pos h]
    have hmem := maxByLen_mem _ hne
    refine ⟨hcollapse, hmem, maxByLen_le _, ?_⟩
    rw [hcollapse, List.filter_append]
    have h1 : (l.filter (fun t => ¬ isPcTag t)).filter (fun t => isPcTag t) = [] := by
      rw [List.filter_filter]
      refine List.filter_eq_nil_iff.mpr ?_
      intro a _
      simp
    have h2 : ([maxByLen (l.filter (fun t => isPcTag t))] : List String).filter
        (fun t => isPcTag t) = [maxByLen (l.filter (fun t => isPcTag t))] := by
      have := (List.mem_filter.mp hmem).2
      simp [List.filter_cons, this]
    rw [h1, h2, List.nil_append]
  · intro h
    simp only [pcCollapse]
    rw [if_neg (not_lt_of_le h)]

/-- C8: the safety gate's per-phrase substitution maps exactly the six
explicit terms — `nipples`, `areolae`, `erect nipples` to
`covered nipples`, `penis` to `covered penis`, `anus` to `covered anus`,
`pubic hair` to `pubic hair peek` — and leaves every other phrase
unchanged. -/
theorem c8_sfw_substitution :
    sfwReplace "nipples" = "covered nipples" ∧
    sfwReplace "areolae" = "covered nipples" ∧
    sfwReplace "erect nipples" = "covered nipples" ∧
    sfwReplace "penis" = "covered penis" ∧
    sfwReplace "anus" = "covered anus" ∧
    sfwReplace "pubic hair" = "pubic hair peek" ∧
    ∀ t : String, t ∉ (["nipples", "areolae", "erect nipples", "penis",
      "anus", "pubic hair"] : List String) → sfwReplace t = t := by
  refine ⟨rfl, rfl, rfl, rfl, rfl, rfl, ?_⟩
  intro t ht
  simp only [List.mem_cons, List.not_mem_nil, or_false, not_or] at ht
  obtain ⟨h1, h2, h3, h4, h5, h6⟩ := ht
  simp [sfwReplace, h1, h2, h3, h4, h5, h6]

theorem c8_witness : sfwReplace "blue eyes" = "blue eyes" :=
  c8_sfw_substitution.2.2.2.2.2.2 "blue eyes" (by decide)

/-- C9 (amended): for every non-string input the wrapper returns the empty
string, not the original value. -/
theorem c9_nonstring_empty (v : PyVal) (h : v.isStr = false) :
    dedupe_and_clean_prompt v = .str "" := by
  cases v with
  | str s => simp [PyVal.isStr] at h
  | intVal n => rfl
  | noneVal => rfl

/-- C9 counterexample: `dedupe_and_clean_prompt(None)` returns `""`, which
is not the original value. -/
theorem c9_counterexample :
    dedupe_and_clean_prompt PyVal.noneVal = .str "" ∧
      PyVal.noneVal ≠ PyVal.str "" := ⟨rfl, by decide⟩

theorem c9_witness : dedupe_and_clean_prompt (PyVal.intVal 7) = .str "" :=
  c9_nonstring_empty (PyVal.intVal 7) rfl

/-- C1 (amended): after the retention-floor pass, either the output token
list reaches `max(10, int(round(0.35 * N)))` tokens — with the rounding
of the binary64 product as CPython computes it, not `ceil` of the exact
fraction — or every original token's normalized form already occurs in
the output (the floor cannot be met once the distinct normalized
originals are exhausted, so it is not a hard postcondition). -/
theorem c1_retention_floor (scorer : Scorer) (cfg : ConsolidationConfig)
    (text : String) :
    minKeepFn (split_and_clean text).length ≤
        (consolidateOut scorer cfg (split_and_clean text)).length ∨
      ∀ t ∈ split_and_clean text,
        normKey t ∈ consolidateOut scorer cfg (split_and_clean text) :=
  floorTopUp_floor (minKeepFn (split_and_clean text).length)
    (consolidateCore scorer cfg (split_and_clean text))
    (consolidateCore scorer cfg (split_and_clean text))
    (split_and_clean text) (fun _ hx => hx)

/-- The empty-configuration counterexample input for the retention-floor
claim: thirty tokens whose near-duplicates collapse to one phrase while
eleven distinct normalized originals exist. -/
def inputC1 : String := joinComma (["aaaaaaaa", "aaaaaaaa0", "aaaaaaaa1",
  "aaaaaaaa2", "aaaaaaaa3", "aaaaaaaa4", "aaaaaaaa5", "aaaaaaaa6",
  "aaaaaaaa7", "aaaaaaaa8", "aaaaaaaa9"] ++ List.replicate 19 "aaaaaaaa")

/-- C1 counterexample: a 30-token input whose consolidated output has 10
phrases, below the claimed hard floor `max(10, ceil(0.35·30)) = 11`; the
top-up also stops before the eleventh distinct normalized original, so
the ceiling-based floor fails even in its exhaustion-aware form. -/
theorem c1_counterexample :
    (split_and_clean inputC1).length = 30 ∧
      (split_and_clean (consolidate_algorithmic qratioModel inputC1 {})).length <
        max 10 ((7 * 30 + 19) / 20) ∧
      ¬ ∀ t ∈ split_and_clean inputC1,
        normKey t ∈ split_and_clean (consolidate_algorithmic qratioModel inputC1 {}) := by
  decide

/-- C10: with `sfw_mode` off the output token list of
`consolidate_algorithmic` never contains two identical phrases (the
exact-dedup pass and the floor top-up both preserve uniqueness); with
`sfw_mode` on, the SFW substitution runs after the dedup pass and can map
two distinct phrases to the same replacement, as `nipples`/`areolae` show
concretely. -/
theorem c10_output_uniqueness :
    (∀ (scorer : Scorer) (cfg : ConsolidationConfig) (ts : List String),
      cfg.sfw_mode = false → (consolidateOut scorer cfg ts).Nodup) ∧
    ¬ (consolidateOut qratioModel { sfw_mode := true }
        ["nipples", "areolae", "b1", "b2", "b3", "b4", "b5", "b6", "b7",
         "b8"]).Nodup := by
  constructor
  · intro scorer cfg ts hsfw
    refine floorTopUp_nodup _ _ _ _ ?_ (fun x hx => hx)
    simp only [consolidateCore, hsfw, Bool.false_eq_true, if_false]
    exact exactDedup_nodup _ _
  · decide

theorem c10_witness : (consolidateOut qratioModel {} ["a", "b"]).Nodup :=
  c10_output_uniqueness.1 qratioModel {} ["a", "b"] rfl

/-- C2 (amended): construction succeeds with the line-list fields read
through the never-failing `read_lines` (which degrades to `[]` on a
missing or unreadable file) provided the alias-map and modifiers JSON
files are present and parse; those two are opened bare, so only they can
raise. -/
theorem c2_config_load (fs : FileSys)
    (parseAlias parseModifiers : String → Option (List (String × String)))
    (base_dir : String) (sfw_mode : Bool) (aliasRaw modRaw : String)
    (am mods : List (String × String))
    (h1 : fs (resolve_data_dir fs base_dir ++ "/maps/alias_map.json") = some aliasRaw)
    (h2 : parseAlias aliasRaw = some am)
    (h3 : fs (resolve_data_dir fs base_dir ++ "/features/modifiers.json") = some modRaw)
    (h4 : parseModifiers modRaw = some mods) :
    configInit fs parseAlias parseModifiers base_dir sfw_mode =
      .ok { allowlist := read_lines fs
              (resolve_data_dir fs base_dir ++ "/allowlists/allowlist.txt"),
            weightable := read_lines fs
              (resolve_data_dir fs base_dir ++ "/allowlists/weightable_tags.txt"),
            media := read_lines fs
              (resolve_data_dir fs base_dir ++ "/allowlists/media_tags.txt"),
            drift := read_lines fs
              (resolve_data_dir fs base_dir ++ "/allowlists/generic_drift.txt"),
            alias_map := am, modifiers := mods, sfw_mode := sfw_mode } ∧
      ∀ path, fs path = none → read_lines fs path = [] := by
  constructor
  · simp only [configInit]
    rw [h1]
    dsimp only
    rw [h2]
    dsimp only
    rw [h3]
    dsimp only
    rw [h4]
  · intro path hp
    simp only [read_lines, hp]

/-- The counterexample filesystem for the configuration loader: only the
allowlist sentinel exists. -/
def fsC2 : FileSys := fun p =>
  if p = "vt/data/allowlists/allowlist.txt" then some "tag one\ntag two\n"
  else none

/-- C2 counterexample: with every data file except the allowlist missing,
`ConsolidationConfig.__init__` raises (`OSError` from the bare `open` of
`alias_map.json`) instead of degrading to an empty alias map. -/
theorem c2_counterexample :
    configInit fsC2 (fun _ => some []) (fun _ => some []) "vt" false =
      .error (.osError "vt/data/maps/alias_map.json") ∧
    read_lines fsC2 "vt/data/allowlists/allowlist.txt" =
      ["tag one", "tag two"] := by
  constructor
  · rfl
  · rfl

/-- The witness filesystem: both JSON files present, all line files
missing. -/
def fsC2w : FileSys := fun p =>
  if p = "vt/data/maps/alias_map.json" then some "A"
  else if p = "vt/data/features/modifiers.json" then some "M"
  else none

/-- The witness alias-map parser stub. -/
def parseAliasW : String → Option (List (String × String)) :=
  fun s => if s = "A" then some [("photo", "photography")] else none

/-- The witness modifiers parser stub. -/
def parseModifiersW : String → Option (List (String × String)) :=
  fun s => if s = "M" then some [] else none

theorem c2_witness :
    configInit fsC2w parseAliasW parseModifiersW "vt" false =
      .ok { allowlist := read_lines fsC2w "vt/data/allowlists/allowlist.txt",
            weightable := read_lines fsC2w "vt/data/allowlists/weightable_tags.txt",
            media := read_lines fsC2w "vt/data/allowlists/media_tags.txt",
            drift := read_lines fsC2w "vt/data/allowlists/generic_drift.txt",
            alias_map := [("photo", "photography")], modifiers := [],
            sfw_mode := false } :=
  (c2_config_load fsC2w parseAliasW parseModifiersW "vt" false "A" "M"
    [("photo", "photography")] [] rfl rfl rfl rfl).1

/-- The soft-compact counterexample configuration: one drift term. -/
def cfgC5 : ConsolidationConfig := { drift := ["blurry"] }

/-- The soft-compact counterexample input: a drift token before the
target, fifteen content tokens, a drift token after the target is
reached, and one trailing token (18 tokens, target 15). -/
def inputC5 : String := joinComma (["blurry", "x1", "x2", "x3", "x4", "x5",
  "x6", "x7", "x8", "x9", "x10", "x11", "x12", "x13", "x14", "x15",
  "blurry", "x16"])

/-- C5 counterexample: with `target = 15` reached, the second `blurry` is
passed through even though the drift set contains it and dropping it
would not violate the floor (`min_keep = 10`); the claim predicts it is
dropped. -/
theorem c5_counterexample :
    soft_compact_fallback inputC5 cfgC5 =
      joinComma (["x1", "x2", "x3", "x4", "x5", "x6", "x7", "x8", "x9",
        "x10", "x11", "x12", "x13", "x14", "x15", "blurry", "x16"]) ∧
    "blurry" ∈ split_and_clean (soft_compact_fallback inputC5 cfgC5) ∧
    targetFn (split_and_clean inputC5).length = 15 ∧
    minKeepFn (split_and_clean inputC5).length = 10 := by
  decide

/-- C6 counterexample: three phrases with pairwise distinct
canonicalizations (`solo`, `1girl`, `blue eyes`): the person-count
collapse appends `1girl` at the end and the floor top-up re-adds `solo`
at the end, so the output order `blue eyes, 1girl, solo` reverses the
input's first-occurrence order. -/
theorem c6_counterexample :
    (["solo", "1girl", "blue eyes"].map
        (alias_or_canonical qratioModel {})).Nodup ∧
    consolidate_algorithmic qratioModel "solo, 1girl, blue eyes" {} =
      "blue eyes, 1girl, solo" ∧
    ¬ (consolidateOut qratioModel {} ["solo", "1girl", "blue eyes"]).Sublist
        (["solo", "1girl", "blue eyes"].map
          (alias_or_canonical qratioModel {})) := by
  decide

/-- C6 (amended): when no two phrases canonicalize to the same value, at
most one person-count tag is present, the gloss rewrite and descriptor
merge leave the tokens unchanged, `sfw_mode` is off, and the reduced
output already meets the floor (no top-up), the output token list is an
order-preserving subsequence of the canonicalized input, so the relative
first-occurrence order is unchanged; in general the person-count collapse
and the floor top-up both append at the end and break the order. -/
theorem c6_order_preservation (scorer : Scorer) (cfg : ConsolidationConfig)
    (ts : List String)
    (_hnd : (ts.map (alias_or_canonical scorer cfg)).Nodup)
    (hpc : ((ts.map (alias_or_canonical scorer cfg)).filter
      (fun t => isPcTag t)).length ≤ 1)
    (hgloss : ∀ t ∈ ts.map (alias_or_canonical scorer cfg), glossSub t = t)
    (hmerge : mergeDescriptorGroups
        ((ts.map (alias_or_canonical scorer cfg)).filter (fun t => t ≠ "hair")) =
      (ts.map (alias_or_canonical scorer cfg)).filter (fun t => t ≠ "hair"))
    (hsfw : cfg.sfw_mode = false)
    (hfloor : minKeepFn ts.length ≤ (consolidateCore scorer cfg ts).length) :
    (consolidateOut scorer cfg ts).Sublist
      (ts.map (alias_or_canonical scorer cfg)) := by
  have hout : consolidateOut scorer cfg ts = consolidateCore scorer cfg ts :=
    floorTopUp_of_le _ _ _ _ hfloor
  rw [hout]
  have hmapg : ((ts.map (alias_or_canonical scorer cfg)).filter
      (fun t => t ≠ "hair")).map glossSub =
      (ts.map (alias_or_canonical scorer cfg)).filter (fun t => t ≠ "hair") := by
    have : ∀ t ∈ (ts.map (alias_or_canonical scorer cfg)).filter
        (fun t => t ≠ "hair"), glossSub t = t :=
      fun t ht => hgloss t (List.mem_of_mem_filter ht)
    rw [List.map_congr_left this]
    simp
  have hcore : consolidateCore scorer cfg ts =
      exactDedup [] (dedupe_near scorer
        ((ts.map (alias_or_canonical scorer cfg)).filter (fun t => t ≠ "hair")) 94) := by
    simp only [consolidateCore, hsfw, Bool.false_eq_true, if_false]
    rw [pcCollapse_of_le_one _ hpc, hmapg, hmerge]
  rw [hcore]
  have h2 : (dedupe_near scorer
      ((ts.map (alias_or_canonical scorer cfg)).filter (fun t => t ≠ "hair"))
      94).Sublist
      ((ts.map (alias_or_canonical scorer cfg)).filter (fun t => t ≠ "hair")) := by
    have := dedupeNearGo_sublist scorer 94 []
      ((ts.map (alias_or_canonical scorer cfg)).filter (fun t => t ≠ "hair"))
    rwa [List.nil_append] at this
  exact ((exactDedup_sublist _ _).trans h2).trans (List.filter_sublist _)

theorem c6_witness :
    (consolidateOut qratioModel {}
        ["b1", "b2", "b3", "b4", "b5", "b6", "b7", "b8", "b9", "b10"]).Sublist
      (["b1", "b2", "b3", "b4", "b5", "b6", "b7", "b8", "b9", "b10"].map
        (alias_or_canonical qratioModel {})) :=
  c6_order_preservation qratioModel {}
    ["b1", "b2", "b3", "b4", "b5", "b6", "b7", "b8", "b9", "b10"]
    (by decide) (by decide) (by decide) (by decide) rfl (by decide)

/-- C3 (amended): a second application of `consolidate_algorithmic`
returns the first output unchanged provided the first output's phrases
are clean comma-free fixed points of the canonicalizer and of every
normalizer pass (gloss rewrite, descriptor merge, near-dedup), pairwise
distinct, with at most one person-count tag, no bare `hair`, SFW-stable
when `sfw_mode` is on, and the output meets the floor for its own token
count; without the fixed-point conditions a floor top-up token that
canonicalizes onto an existing phrase breaks idempotence. -/
theorem c3_idempotent_when_canonical (scorer : Scorer)
    (cfg : ConsolidationConfig) (x : String) (out : List String)
    (hdef : consolidateOut scorer cfg (split_and_clean x) = out)
    (hx : split_and_clean x ≠ [])
    (h0 : out ≠ [])
    (h1 : ∀ t ∈ out, t ≠ "" ∧ stripStr t = t ∧ ',' ∉ t.data)
    (hcanon : ∀ t ∈ out, alias_or_canonical scorer cfg t = t)
    (hpc : (out.filter (fun t => isPcTag t)).length ≤ 1)
    (hhair : "hair" ∉ out)
    (hgloss : ∀ t ∈ out, glossSub t = t)
    (hmerge : mergeDescriptorGroups out = out)
    (hnear : dedupe_near scorer out 94 = out)
    (hnd : out.Nodup)
    (hsfw : cfg.sfw_mode = true → ∀ t ∈ out, sfwReplace t = t)
    (hfloor : minKeepFn out.length ≤ out.length) :
    consolidate_algorithmic scorer (consolidate_algorithmic scorer x cfg) cfg =
      consolidate_algorithmic scorer x cfg := by
  have hy : consolidate_algorithmic scorer x cfg = joinComma out := by
    simp only [consolidate_algorithmic]
    rw [if_neg hx, hdef]
  have hsplit : split_and_clean (joinComma out) = out :=
    split_and_clean_joinComma out h0 h1
  have hcore : consolidateCore scorer cfg out = out := by
    have hmap : out.map (alias_or_canonical scorer cfg) = out := by
      rw [List.map_congr_left hcanon]
      simp
    have hfilter : out.filter (fun t => t ≠ "hair") = out := by
      refine List.filter_eq_self.mpr ?_
      intro a ha
      simp only [ne_eq, decide_not, Bool.not_eq_true', decide_eq_false_iff_not]
      intro he
      exact hhair (he ▸ ha)
    have hmapg : out.map glossSub = out := by
      rw [List.map_congr_left hgloss]
      simp
    have hexact : exactDedup [] out = out :=
      exactDedup_eq_self [] out hnd (fun t _ h => by simp at h)
    simp only [consolidateCore]
    rw [hmap, pcCollapse_of_le_one _ hpc, hfilter, hmapg, hmerge, hnear, hexact]
    cases hs : cfg.sfw_mode with
    | false => simp
    | true =>
      simp only [if_true]
      rw [List.map_congr_left (hsfw hs)]
      simp
  have hout2 : consolidateOut scorer cfg out = out := by
    simp only [consolidateOut]
    rw [hcore]
    exact floorTopUp_of_le _ _ _ _ hfloor
  rw [hy]
  simp only [consolidate_algorithmic]
  rw [hsplit, if_neg h0, hout2]

theorem c3_witness :
    consolidate_algorithmic qratioModel
        (consolidate_algorithmic qratioModel
          "b1, b2, b3, b4, b5, b6, b7, b8, b9, b10" {}) {} =
      consolidate_algorithmic qratioModel
        "b1, b2, b3, b4, b5, b6, b7, b8, b9, b10" {} :=
  c3_idempotent_when_canonical qratioModel {}
    "b1, b2, b3, b4, b5, b6, b7, b8, b9, b10"
    ["b1", "b2", "b3", "b4", "b5", "b6", "b7", "b8", "b9", "b10"]
    (by decide) (by decide) (by decide) (by decide) (by decide) (by decide)
    (by decide) (by decide) (by decide) (by decide) (by decide)
    (fun h => absurd h (by decide)) (by decide)

/-- The idempotence counterexample configuration: one alias pair. -/
def cfgC3 : ConsolidationConfig := { alias_map := [("p", "qq")] }

/-- The idempotence counterexample input: 23 copies of the alias `p`
followed by ten distinct tokens and the canonical `qq` (34 tokens, floor
12), so the first pass tops the output up with the raw alias `p`. -/
def inputC3 : String := joinComma (List.replicate 23 "p" ++
  ["b1", "b2", "b3", "b4", "b5", "b6", "b7", "b8", "b9", "b10", "qq"])

/-- C3 counterexample: the first output has 12 tokens and satisfies the
retention floor for its own token count (both the spec's ceiling form and
the code's rounding form), yet a second application canonicalizes the
topped-up `p` to `qq`, deduplicates it, and returns 11 tokens. -/
theorem c3_counterexample :
    max 10 ((7 * (split_and_clean
          (consolidate_algorithmic qratioModel inputC3 cfgC3)).length + 19) / 20) ≤
        (split_and_clean (consolidate_algorithmic qratioModel inputC3 cfgC3)).length ∧
      minKeepFn (split_and_clean
          (consolidate_algorithmic qratioModel inputC3 cfgC3)).length ≤
        (split_and_clean (consolidate_algorithmic qratioModel inputC3 cfgC3)).length ∧
      consolidate_algorithmic qratioModel
          (consolidate_algorithmic qratioModel inputC3 cfgC3) cfgC3 ≠
        consolidate_algorithmic qratioModel inputC3 cfgC3 := by
  decide

theorem c7_witness :
    pcCollapse ["solo", "1girl", "blue eyes"] = ["blue eyes", "1girl"] := by
  have h := (c7_person_count_collapse ["solo", "1girl", "blue eyes"]).1 (by decide)
  rw [h.1]
  decide

end VT

